import Mathlib

/-!
Verification of the aggregation pipeline in `src/data_analysis.py`.

The pipeline is a set of pure tabular transforms written with pandas.  We give
a shallow embedding of each transform as an executable Lean function over lists
of typed rows, mirroring the pandas semantics that the source relies on:

* numeric cells are exact rationals; computed metrics live in `FVal`, which
  adds the IEEE special values NaN, +inf and -inf that pandas produces on
  division by zero and on missing data (pandas represents a numeric null as
  NaN).  Rounding of binary floats is immaterial to every claim considered,
  so `FVal` carries exact rationals in its finite case.
* `groupby(key)` sorts the distinct keys (pandas default `sort=True`) and
  drops rows whose key is null (pandas default `dropna=True`); nullable
  columns are embedded as `Option`-valued fields.
* `sort_values([a, b])` is a stable lexicographic sort (pandas uses a stable
  lexsort for multi-column sorts).
* `merge(..., how="left")` emits, for each left row in order, one output row
  per matching right row, and a single row with a null fill when there is no
  match.
-/

namespace DataAnalysis

/-- Embedded float value: NaN, plus/minus infinity, or a finite number
(carried as an exact rational). -/
inductive FVal where
  | nan : FVal
  | inf : FVal
  | ninf : FVal
  | num : ℚ → FVal
deriving DecidableEq, Repr

namespace FVal

/-- IEEE subtraction on embedded floats (signed zeros are not distinguished;
no claim depends on them). -/
def sub : FVal → FVal → FVal
  | nan, _ => nan
  | _, nan => nan
  | inf, inf => nan
  | inf, _ => inf
  | ninf, ninf => nan
  | ninf, _ => ninf
  | num _, inf => ninf
  | num _, ninf => inf
  | num a, num b => num (a - b)

/-- IEEE addition on embedded floats. -/
def add : FVal → FVal → FVal
  | nan, _ => nan
  | _, nan => nan
  | inf, ninf => nan
  | ninf, inf => nan
  | inf, _ => inf
  | ninf, _ => ninf
  | num _, inf => inf
  | num _, ninf => ninf
  | num a, num b => num (a + b)

/-- IEEE division on embedded floats: a nonzero finite number divided by zero
gives a signed infinity, zero divided by zero gives NaN, NaN propagates.
This is what numpy (hence pandas) does for float columns; no exception is
raised. -/
def div : FVal → FVal → FVal
  | nan, _ => nan
  | _, nan => nan
  | num a, num b =>
      if b = 0 then
        if a = 0 then nan else if 0 < a then inf else ninf
      else num (a / b)
  | num _, inf => num 0
  | num _, ninf => num 0
  | inf, num b => if 0 ≤ b then inf else ninf
  | ninf, num b => if 0 ≤ b then ninf else inf
  | inf, _ => nan
  | ninf, _ => nan

/-- IEEE multiplication on embedded floats. -/
def mul : FVal → FVal → FVal
  | nan, _ => nan
  | _, nan => nan
  | num a, num b => num (a * b)
  | inf, num b => if b = 0 then nan else if 0 < b then inf else ninf
  | ninf, num b => if b = 0 then nan else if 0 < b then ninf else inf
  | num a, inf => if a = 0 then nan else if 0 < a then inf else ninf
  | num a, ninf => if a = 0 then nan else if 0 < a then ninf else inf
  | inf, inf => inf
  | inf, ninf => ninf
  | ninf, inf => ninf
  | ninf, ninf => inf

/-- IEEE strict comparison: every comparison involving NaN is false. -/
def flt : FVal → FVal → Bool
  | nan, _ => false
  | _, nan => false
  | ninf, ninf => false
  | ninf, _ => true
  | _, ninf => false
  | inf, inf => false
  | _, inf => true
  | inf, _ => false
  | num a, num b => decide (a < b)

/-- IEEE non-strict comparison: every comparison involving NaN is false. -/
def fle : FVal → FVal → Bool
  | nan, _ => false
  | _, nan => false
  | ninf, _ => true
  | _, ninf => false
  | _, inf => true
  | inf, _ => false
  | num a, num b => decide (a ≤ b)

end FVal

/-- Embedding of `Series.max()` with pandas default `skipna`: the maximum of a numeric
column, NaN when the column is empty.  (The embedded columns hold no nulls,
so skipping NaNs is vacuous.) -/
def seriesMax (l : List ℚ) : FVal :=
  match l with
  | [] => FVal.nan
  | x :: xs => FVal.num (xs.foldl max x)

/-- Embedding of `Series.mean()` with pandas default `skipna`: drop NaNs, then divide the
sum of the remaining values by their count; NaN when nothing remains. -/
def fmean (l : List FVal) : FVal :=
  let xs := l.filter (fun v => v ≠ FVal.nan)
  if xs.isEmpty then FVal.nan
  else FVal.div (xs.foldl FVal.add (FVal.num 0)) (FVal.num xs.length)

/-! ### Stable sorting

pandas `sort_values` over several columns performs a stable lexicographic
sort.  We embed it as a stable insertion sort parameterized by a boolean
total preorder. -/

/-- Insert `x` into `l` immediately before the first element `y` with
`le x y`; this makes the enclosing sort stable. -/
def insSorted (le : α → α → Bool) (x : α) : List α → List α
  | [] => [x]
  | y :: ys => if le x y then x :: y :: ys else y :: insSorted le x ys

/-- Stable insertion sort. -/
def stableSort (le : α → α → Bool) : List α → List α
  | [] => []
  | x :: xs => insSorted le x (stableSort le xs)

/-- Boolean version of a linear order, used as the comparator everywhere. -/
def ble [LinearOrder α] (a b : α) : Bool := decide (a ≤ b)

/-- The sorted list of distinct non-null group keys, as produced by pandas
`groupby` (default `sort=True`). -/
def sortedKeys [LinearOrder α] (ks : List α) : List α :=
  (stableSort ble ks).dedup

/-! ### Grouped sums (`sales_by_product`, `cogs_by_product`,
`cogs_breakdown_by_material`)

Each groups by one column and sums one or two numeric columns; pandas sorts
the distinct keys and drops rows with a null key.  Key dtype is arbitrary,
hence the transforms are generic in a linearly ordered key type `K`; a null
key cell is `none`. -/

/-- Embedding of `sales_by_product(order_df, sku_col, qty_col, vol_col)`:
rows are (sku, qty, vol); output rows are (sku, total_units, total_volume). -/
def sales_by_product {K : Type} [LinearOrder K]
    (rows : List (Option K × ℚ × ℚ)) : List (K × ℚ × ℚ) :=
  (sortedKeys (rows.filterMap (fun r => r.1))).map (fun k =>
    (k, ((rows.filter (fun r => r.1 = some k)).map (fun r => r.2.1)).sum,
        ((rows.filter (fun r => r.1 = some k)).map (fun r => r.2.2)).sum))

/-- Common core of the two one-column grouped sums below:
`groupby(key)[val].sum().reset_index()`. -/
def groupSum1 {K : Type} [LinearOrder K] (rows : List (Option K × ℚ)) : List (K × ℚ) :=
  (sortedKeys (rows.filterMap (fun r => r.1))).map (fun k =>
    (k, ((rows.filter (fun r => r.1 = some k)).map (fun r => r.2)).sum))

/-- Embedding of `cogs_by_product(order_df, sku_col, cost_col)`: rows are (sku, cogs);
output rows are (sku, total_cogs). -/
def cogs_by_product {K : Type} [LinearOrder K] (rows : List (Option K × ℚ)) :
    List (K × ℚ) :=
  groupSum1 rows

/-- Embedding of `cogs_breakdown_by_material(product_df, raw_material_col, cogs_subtotal_col)`:
rows are (raw_material, cogs_subtotal); output rows are
(raw_material, total_material_cogs). -/
def cogs_breakdown_by_material {K : Type} [LinearOrder K] (rows : List (Option K × ℚ)) :
    List (K × ℚ) :=
  groupSum1 rows

/-- Embedding of `avg_sales_price(order_df, sku_col, rev_col, qty_col)`: rows are
(sku, revenue, qty); output rows are (sku, avg_sales_price) with
avg_sales_price = total_revenue / total_units as a float division. -/
def avg_sales_price {K : Type} [LinearOrder K]
    (rows : List (Option K × ℚ × ℚ)) : List (K × FVal) :=
  (sortedKeys (rows.filterMap (fun r => r.1))).map (fun k =>
    (k, FVal.div
      (FVal.num (((rows.filter (fun r => r.1 = some k)).map (fun r => r.2.1)).sum))
      (FVal.num (((rows.filter (fun r => r.1 = some k)).map (fun r => r.2.2)).sum))))

/-- Embedding of `avg_margin_by_product(order_df, sku_col, revenue_col, cost_col)`: rows are
(sku, revenue, cost); output rows are (sku, avg_margin_pct, avg_margin_abs)
with avg_margin_abs = total_rev - total_cost and
avg_margin_pct = avg_margin_abs / total_rev * 100. -/
def avg_margin_by_product {K : Type} [LinearOrder K]
    (rows : List (Option K × ℚ × ℚ)) : List (K × FVal × ℚ) :=
  (sortedKeys (rows.filterMap (fun r => r.1))).map (fun k =>
    let tr := ((rows.filter (fun r => r.1 = some k)).map (fun r => r.2.1)).sum
    let tc := ((rows.filter (fun r => r.1 = some k)).map (fun r => r.2.2)).sum
    (k, FVal.mul (FVal.div (FVal.num (tr - tc)) (FVal.num tr)) (FVal.num 100), tr - tc))

/-! ### `discounts_by_order` -/

/-- A row of `order_df` as read by `discounts_by_order`; the price columns are
nullable numerics (a null is pandas NaN, embedded as `FVal.nan`). -/
structure DRow where
  orderId : String
  listPrice : FVal
  unitPrice : FVal
deriving DecidableEq, Repr

/-- Embedding of `discounts_by_order(order_df, list_price_col, unit_price_col, order_id_col)`:
one output row per input row, discount_pct = (list - unit) / list. -/
def discounts_by_order (rows : List DRow) : List (String × FVal) :=
  rows.map (fun r => (r.orderId, FVal.div (FVal.sub r.listPrice r.unitPrice) r.listPrice))

/-! ### `moving_avg_volume`

The source sorts by (sku, date), computes a per-group rolling mean with an
integer window (pandas default `min_periods = window`, so positions with
fewer than `window` observations get NaN), and left-merges the rolling value
back onto the sorted frame on (sku, date).  It is generic in the sku and
date dtypes; `pd.to_datetime` is an injective, order-preserving map from the
date strings pandas accepts, so dates are embedded as an arbitrary linearly
ordered type. -/

/-- A row of `sales_df` as read by `moving_avg_volume`. -/
structure SRow (K D : Type) where
  sku : K
  date : D
  vol : ℚ
deriving DecidableEq, Repr

/-- Embedding of `sort_values([sku_col, date_col])` comparator: lexicographic. -/
def rowle {K D : Type} [LinearOrder K] [LinearOrder D] (a b : SRow K D) : Bool :=
  ble (toLex (a.sku, a.date)) (toLex (b.sku, b.date))

/-- Embedding of `rolling(window=w).mean()` over one group laid out in order: position `i`
gets the mean of the last `w` values when at least `w` are available, else
NaN (pandas default `min_periods = window` for an integer window). -/
def rollvals (vals : List ℚ) (w : Nat) : List (Option ℚ) :=
  (List.range vals.length).map (fun i =>
    if w ≤ i + 1 then some ((((vals.take (i + 1)).drop (i + 1 - w)).sum) / (w : ℚ))
    else none)

/-- Embedding of `moving_avg_volume(sales_df, sku_col, vol_col, date_col, window)`.
The rolling frame holds one row per (sku, date) of each group in group order;
the final left merge matches on (sku, date), emitting one output row per
matching rolling row and a null fill when there is no match. -/
def moving_avg_volume {K D : Type} [LinearOrder K] [LinearOrder D]
    (rows : List (SRow K D)) (window : Nat) : List (SRow K D × Option ℚ) :=
  let df := stableSort rowle rows
  let rolling : List (K × D × Option ℚ) :=
    (sortedKeys (df.map (fun r => r.sku))).flatMap (fun k =>
      let g := df.filter (fun r => r.sku = k)
      (g.zip (rollvals (g.map (fun r => r.vol)) window)).map (fun p => (k, p.1.date, p.2)))
  df.flatMap (fun r =>
    let ms := rolling.filter (fun t => t.1 = r.sku ∧ t.2.1 = r.date)
    if ms.isEmpty then [(r, none)] else ms.map (fun t => (r, t.2.2)))

/-- The rolling value looked up by date inside one group only (used to state
that each output value is computed from rows of its own group). -/
def groupRollLookup {K D : Type} [DecidableEq D]
    (g : List (SRow K D)) (w : Nat) (d : D) : Option ℚ :=
  (((g.zip (rollvals (g.map (fun r => r.vol)) w)).filter (fun p => p.1.date = d)).head?).bind
    (fun p => p.2)

/-! ### `churn_report`

Aggregates volume per (sku, quarter), sorts by (sku, period), shifts within
each sku to get the prior aggregated row, then delta = vol - prev and
pct_change = delta / prev * 100 with float semantics (`shift` fills the
first row of each group with NaN). -/

/-- A row of `sales_df` as read by `churn_report`; the date is embedded as
(year, month) since `to_period("Q")` only reads those fields. -/
structure CRow where
  sku : String
  year : Int
  month : Int
  vol : ℚ
deriving DecidableEq, Repr

/-- Embedding of `dt.to_period("Q")`: the (year, quarter) bucket, ordered chronologically
(lexicographically). -/
def periodQ (r : CRow) : Lex (Int × Int) := toLex (r.year, (r.month - 1) / 3 + 1)

/-- A row of the intermediate aggregate (sku, period, summed volume). -/
structure AggRow where
  sku : String
  period : Lex (Int × Int)
  vol : ℚ
deriving DecidableEq

/-- The (sku, period) grouping key, ordered lexicographically as pandas sorts
tuples of group keys. -/
def churnKey (r : CRow) : Lex (String × Lex (Int × Int)) := toLex (r.sku, periodQ r)

/-- Embedding of `groupby([sku_col, "period"])[vol_col].sum().reset_index()`: one row per
distinct (sku, period), keys sorted, volume summed. -/
def churnAgg (rows : List CRow) : List AggRow :=
  (sortedKeys (rows.map churnKey)).map (fun k =>
    { sku := (ofLex k).1, period := (ofLex k).2,
      vol := ((rows.filter (fun r => churnKey r = k)).map (fun r => r.vol)).sum })

/-- The (sku, period) key of an aggregate row. -/
def aggKey (a : AggRow) : Lex (String × Lex (Int × Int)) := toLex (a.sku, a.period)

/-- Embedding of `sort_values([sku_col, "period"])` comparator. -/
def aggLe (a b : AggRow) : Bool := ble (aggKey a) (aggKey b)

/-- Embedding of `groupby(sku)[vol].shift(1)` worker: the shifted value of each row is the
volume of the nearest earlier row with the same sku (`seen` holds the already
processed prefix, most recent first). -/
def shiftGo (seen : List AggRow) : List AggRow → List (AggRow × Option ℚ)
  | [] => []
  | x :: xs =>
      (x, ((seen.filter (fun a => a.sku = x.sku)).head?).map (fun a => a.vol)) ::
        shiftGo (x :: seen) xs

/-- Embedding of `groupby(sku)[vol].shift(1)` applied to the whole frame. -/
def shiftWithin (l : List AggRow) : List (AggRow × Option ℚ) := shiftGo [] l

/-- An output row of `churn_report`. -/
structure ChurnRow where
  sku : String
  period : Lex (Int × Int)
  vol : ℚ
  prev_volume : FVal
  delta : FVal
  pct_change : FVal
deriving DecidableEq

/-- Attach prev_volume, delta and pct_change to an aggregate row. -/
def finalizeChurn (p : AggRow × Option ℚ) : ChurnRow :=
  let pv : FVal := match p.2 with
    | some v => FVal.num v
    | none => FVal.nan
  let d := FVal.sub (FVal.num p.1.vol) pv
  { sku := p.1.sku, period := p.1.period, vol := p.1.vol,
    prev_volume := pv, delta := d,
    pct_change := FVal.mul (FVal.div d pv) (FVal.num 100) }

/-- Embedding of `churn_report(sales_df, sku_col, vol_col, date_col, freq="Q")` (the default
quarterly frequency, the only one used in this repository). -/
def churn_report (rows : List CRow) : List ChurnRow :=
  (shiftWithin (stableSort aggLe (churnAgg rows))).map finalizeChurn

/-- Spec-side description of the shift: the previous value of a row is the
volume of the immediately preceding row of the aggregate when it has the
same sku, else missing (first parameter: the immediately preceding row). -/
def adjPrev : Option AggRow → List AggRow → List (AggRow × Option ℚ)
  | _, [] => []
  | prev, x :: xs =>
      (x, match prev with
          | some p => if p.sku = x.sku then some p.vol else none
          | none => none) :: adjPrev (some x) xs

/-- Spec-side churn report, for the refinement statement of claim C3: built
from the same per-(sku, period) aggregate, but with "previous" literally the
immediately preceding present period of the same sku in chronological order. -/
def churnSpecSide (rows : List CRow) : List ChurnRow :=
  (adjPrev none (churnAgg rows)).map finalizeChurn

/-! ### `qty_break_discounts`

Bins are `[0] + breaks + [max(qty) + 1]`; `pd.cut(..., right=False)` assigns
each quantity to the half-open interval `[b_i, b_{i+1})` containing it (no
interval: null tier, dropped by the groupby).  `pd.cut` first raises when
some consecutive bin pair decreases (numpy float comparison, so a NaN edge
never triggers it) and then when the edges are not unique (unless there are
exactly two edges, which pandas exempts).  The tier labels in the source are
string renderings of the intervals; the embedding carries the interval
itself.  The final groupby is over a categorical column, whose pandas
default `observed=False` yields one output row per tier, present or not,
with the group mean (NaN on an empty tier). -/

/-- A row of `order_df` as read by `qty_break_discounts`. -/
structure QRow where
  qty : ℚ
  listPrice : FVal
  unitPrice : FVal
deriving DecidableEq, Repr

/-- Per-row discount: (list - unit) / list with float semantics. -/
def discountOf (r : QRow) : FVal :=
  FVal.div (FVal.sub r.listPrice r.unitPrice) r.listPrice

/-- Embedding of `bins = [0] + breaks + [df[qty_col].max() + 1]` (the max of an empty
column is NaN). -/
def mkBins (rows : List QRow) (breaks : List Int) : List FVal :=
  FVal.num 0 :: (breaks.map (fun b => FVal.num (Int.cast b)) ++
    [FVal.add (seriesMax (rows.map (fun r => r.qty))) (FVal.num 1)])

/-- The half-open intervals delimited by consecutive bin edges. -/
def mkTiers (bins : List FVal) : List (FVal × FVal) := bins.zip bins.tail

/-- The tier containing a quantity: first interval with lo ≤ q < hi
(IEEE comparisons, so a NaN edge matches nothing). -/
def assignTier (q : ℚ) (tiers : List (FVal × FVal)) : Option (FVal × FVal) :=
  tiers.find? (fun iv => FVal.fle iv.1 (FVal.num q) && FVal.flt (FVal.num q) iv.2)

/-- Embedding of `qty_break_discounts(order_df, sku_col, qty_col, list_price_col,
unit_price_col, breaks)`: output rows are (qty_tier, avg_discount). -/
def qty_break_discounts (rows : List QRow) (breaks : List Int) :
    Except String (List ((FVal × FVal) × FVal)) :=
  let bins := mkBins rows breaks
  if (bins.zip bins.tail).any (fun p => FVal.flt p.2 p.1) then
    Except.error "bins must increase monotonically"
  else if ¬ bins.Nodup ∧ bins.length ≠ 2 then
    Except.error "Bin edges must be unique"
  else
    let tiers := mkTiers bins
    Except.ok (tiers.map (fun iv =>
      (iv, fmean ((rows.filter (fun r => assignTier r.qty tiers = some iv)).map discountOf))))

/-- A strictly ascending list of integer thresholds. -/
def strictAsc : List Int → Bool
  | [] => true
  | [_] => true
  | a :: b :: t => decide (a < b) && strictAsc (b :: t)

/-! ### `buyback_impact` -/

/-- A row of `order_df` as read by `buyback_impact`; the flag column is a
nullable boolean. -/
structure BRow where
  sku : Option String
  buyback : Option Bool
  rev : ℚ
  cost : ℚ
deriving DecidableEq, Repr

/-- An output row of `buyback_impact`. -/
structure BOut where
  sku : String
  buyback_count : Nat
  rev_impact : ℚ
  cost_impact : ℚ
  net_impact : ℚ
deriving DecidableEq, Repr

/-- Embedding of `buyback_impact(order_df, sku_col, buyback_flag_col, revenue_col, cost_col)`:
keep rows whose flag compares equal to True (pandas `== True` is false on a
null), group by sku, count flag cells (all non-null in the filtered frame, so
the count is the group size), sum revenue and cost, net = rev - cost. -/
def buyback_impact (rows : List BRow) : List BOut :=
  let buy := rows.filter (fun r => r.buyback = some true)
  (sortedKeys (buy.filterMap (fun r => r.sku))).map (fun k =>
    let g := buy.filter (fun r => r.sku = some k)
    { sku := k, buyback_count := g.length,
      rev_impact := (g.map (fun r => r.rev)).sum,
      cost_impact := (g.map (fun r => r.cost)).sum,
      net_impact := (g.map (fun r => r.rev)).sum - (g.map (fun r => r.cost)).sum })

/-- Replace a null flag by an explicit False (for the claim that null-flag
rows are excluded exactly as if the flag were false). -/
def coerceFlag (r : BRow) : BRow :=
  { r with buyback := some (r.buyback = some true) }

/-! ### Column-level wrappers (failure semantics)

Indexing a missing column name raises `KeyError` in pandas; the wrappers
below embed each transform at the level of named columns over a loader table
whose cells are plain numerics (the loader contract of the spec), returning
`Except.error` exactly where the source raises.  Column accesses happen in
source order.  `qty_break_discounts` receives `sku_col` but never reads it,
which the wrapper reproduces. -/

/-- A loader table: named columns of numeric cells. -/
abbrev Table := List (String × List ℚ)

/-- Embedding of `df[col]`: the column, or a KeyError. -/
def getCol (t : Table) (c : String) : Except String (List ℚ) :=
  match t.find? (fun p => p.1 = c) with
  | some p => Except.ok p.2
  | none => Except.error ("KeyError: " ++ c)

/-- A result table: named columns of computed float cells. -/
abbrev OutTable := List (String × List FVal)

/-- Three-list zipWith. -/
def zip3W (f : α → β → γ → δ) : List α → List β → List γ → List δ
  | a :: as, b :: bs, c :: cs => f a b c :: zip3W f as bs cs
  | _, _, _ => []

/-- Column-level `sales_by_product`: group keys read from `sku_col`,
summing `qty_col` and `vol_col`. -/
def sales_by_product_t (t : Table) (skuCol qtyCol volCol : String) :
    Except String OutTable := do
  let ks ← getCol t skuCol
  let qs ← getCol t qtyCol
  let vs ← getCol t volCol
  let res := sales_by_product (zip3W (fun k q v => ((some k : Option ℚ), q, v)) ks qs vs)
  pure [(skuCol, res.map (fun x => FVal.num x.1)),
        ("total_units", res.map (fun x => FVal.num x.2.1)),
        ("total_volume", res.map (fun x => FVal.num x.2.2))]

/-- Column-level `moving_avg_volume` (the source touches `date_col` first via
`to_datetime`, then the sort touches `sku_col`, then the rolling selects
`vol_col`). -/
def moving_avg_volume_t (t : Table) (skuCol volCol dateCol : String) (window : Nat) :
    Except String OutTable := do
  let ds ← getCol t dateCol
  let ks ← getCol t skuCol
  let vs ← getCol t volCol
  let res := moving_avg_volume (zip3W (fun d k v => SRow.mk (K := ℚ) (D := ℚ) k d v) ds ks vs) window
  pure [(skuCol, res.map (fun p => FVal.num p.1.sku)),
        (dateCol, res.map (fun p => FVal.num p.1.date)),
        (volCol, res.map (fun p => FVal.num p.1.vol)),
        ("rolling_avg_volume", res.map (fun p => match p.2 with
           | some v => FVal.num v
           | none => FVal.nan))]

/-- Column-level `qty_break_discounts`; `skuCol` is a parameter the source
never indexes, so its absence is not detected. -/
def qty_break_discounts_t (t : Table) (_skuCol qtyCol lpCol upCol : String)
    (breaks : List Int) : Except String (List ((FVal × FVal) × FVal)) := do
  let lps ← getCol t lpCol
  let ups ← getCol t upCol
  let qs ← getCol t qtyCol
  qty_break_discounts (zip3W (fun l u q => QRow.mk q (FVal.num l) (FVal.num u)) lps ups qs) breaks

theorem insSorted_perm (le : α → α → Bool) (x : α) (l : List α) :
    List.Perm (insSorted le x l) (x :: l) := by
  induction l with
  | nil => simp [insSorted]
  | cons y ys ih =>
      by_cases h : le x y
      · simp [insSorted, h]
      · simp only [insSorted, h, if_neg, Bool.not_eq_true]
        calc
          List.Perm (y :: insSorted le x ys) (y :: x :: ys) := ih.cons y
          List.Perm _ (x :: y :: ys) := List.Perm.swap x y ys

theorem stableSort_perm (le : α → α → Bool) (l : List α) :
    List.Perm (stableSort le l) l := by
  induction l with
  | nil => simp [stableSort]
  | cons x xs ih =>
      calc
        List.Perm (stableSort le (x :: xs)) (x :: stableSort le xs) :=
          insSorted_perm le x _
        List.Perm _ (x :: xs) := ih.cons x

theorem mem_insSorted (le : α → α → Bool) (x a : α) (l : List α) :
    a ∈ insSorted le x l ↔ a = x ∨ a ∈ l := by
  simpa using (insSorted_perm le x l).mem_iff

theorem pairwise_insSorted (le : α → α → Bool)
    (htot : ∀ a b, le a b = true ∨ le b a = true)
    (htrans : ∀ a b c, le a b = true → le b c = true → le a c = true)
    (x : α) (l : List α) (h : l.Pairwise (fun a b => le a b = true)) :
    (insSorted le x l).Pairwise (fun a b => le a b = true) := by
  induction l with
  | nil => simp [insSorted]
  | cons y ys ih =>
      rcases h with _ | ⟨hy, hys⟩
      by_cases hxy : le x y
      · simp only [insSorted, hxy, if_pos]
        refine (List.pairwise_cons).2 ⟨?_, (List.pairwise_cons).2 ⟨hy, hys⟩⟩
        intro b hb
        rcases List.mem_cons.1 hb with rfl | hb
        · exact hxy
        · exact htrans x y b hxy (hy b hb)
      · simp only [insSorted, hxy, if_neg, Bool.not_eq_true]
        refine (List.pairwise_cons).2 ⟨?_, ih hys⟩
        intro b hb
        rcases (mem_insSorted le x b ys).1 hb with heq | hb
        · subst heq
          rcases htot b y with h1 | h1
          · exact absurd h1 (by simpa using hxy)
          · exact h1
        · exact hy b hb

theorem stableSort_pairwise (le : α → α → Bool)
    (htot : ∀ a b, le a b = true ∨ le b a = true)
    (htrans : ∀ a b c, le a b = true → le b c = true → le a c = true)
    (l : List α) :
    (stableSort le l).Pairwise (fun a b => le a b = true) := by
  induction l with
  | nil => simp [stableSort]
  | cons x xs ih => exact pairwise_insSorted le htot htrans x _ ih

theorem stableSort_of_sorted (le : α → α → Bool) (l : List α)
    (h : l.Pairwise (fun a b => le a b = true)) : stableSort le l = l := by
  induction l with
  | nil => rfl
  | cons x xs ih =>
      rcases h with _ | ⟨hx, hxs⟩
      have hrec : stableSort le xs = xs := ih hxs
      have hstep : stableSort le (x :: xs) = insSorted le x (stableSort le xs) := rfl
      rw [hstep, hrec]
      cases xs with
      | nil => rfl
      | cons y ys =>
          have hxy : le x y = true := hx y (by simp)
          simp [insSorted, hxy]

theorem ble_total [LinearOrder α] : ∀ a b : α, ble a b = true ∨ ble b a = true := by
  intro a b
  rcases le_total a b with h | h
  · exact Or.inl (by simpa [ble] using h)
  · exact Or.inr (by simpa [ble] using h)

theorem ble_trans [LinearOrder α] :
    ∀ a b c : α, ble a b = true → ble b c = true → ble a c = true := by
  intro a b c h1 h2
  simp only [ble, decide_eq_true_eq] at h1 h2 ⊢
  exact le_trans h1 h2

theorem sortedKeys_nodup [LinearOrder α] (ks : List α) : (sortedKeys ks).Nodup :=
  List.nodup_dedup _

theorem mem_sortedKeys [LinearOrder α] (k : α) (ks : List α) :
    k ∈ sortedKeys ks ↔ k ∈ ks := by
  unfold sortedKeys
  rw [List.mem_dedup]
  exact (stableSort_perm ble ks).mem_iff

theorem sortedKeys_pairwise [LinearOrder α] (ks : List α) :
    (sortedKeys ks).Pairwise (fun a b => ble a b = true) :=
  (stableSort_pairwise ble ble_total ble_trans ks).sublist (List.dedup_sublist _)

/-! ### Shared helper lemmas -/

theorem mem_map_of_filterMap {A K : Type} (f : A → Option K) (l : List A) (k : K) :
    k ∈ l.filterMap f ↔ some k ∈ l.map f := by
  simp [List.mem_filterMap]

theorem le_foldl_max (x : ℚ) (xs : List ℚ) : x ≤ xs.foldl max x := by
  induction xs generalizing x with
  | nil => exact le_refl x
  | cons y ys ih =>
      calc x ≤ max x y := le_max_left x y
        _ ≤ ys.foldl max (max x y) := ih (max x y)

theorem foldl_max_mem_le (x q : ℚ) (xs : List ℚ) (hq : q = x ∨ q ∈ xs) :
    q ≤ xs.foldl max x := by
  induction xs generalizing x with
  | nil =>
      simp at hq
      simp [hq]
  | cons y ys ih =>
      rcases hq with rfl | hq
      · calc q ≤ max q y := le_max_left q y
          _ ≤ ys.foldl max (max q y) := le_foldl_max _ _
      · rcases List.mem_cons.1 hq with rfl | hq
        · calc q ≤ max x q := le_max_right x q
            _ ≤ ys.foldl max (max x q) := le_foldl_max _ _
        · exact ih (max x y) (Or.inr hq)

theorem seriesMax_bound (l : List ℚ) (M : ℚ) (h : seriesMax l = FVal.num M) :
    ∀ q ∈ l, q ≤ M := by
  intro q hq
  cases l with
  | nil => simp at hq
  | cons x xs =>
      have hM : xs.foldl max x = M := by
        simpa [seriesMax, FVal.num.injEq] using h
      rw [← hM]
      exact foldl_max_mem_le x q xs (by simpa using List.mem_cons.1 hq)

/-! ### Claim C5: grouped sums preserve the key set -/

/-- C5: for input tables with no null grouping key, the grouped-sum transforms
`sales_by_product`, `cogs_by_product` and `cogs_breakdown_by_material` emit
exactly one output row per distinct input key: output keys are pairwise
distinct and their set is the set of input keys. -/
theorem C5_grouped_sum_key_set {K : Type} [LinearOrder K] :
    (∀ rows : List (Option K × ℚ × ℚ), (∀ r ∈ rows, r.1 ≠ none) →
      ((sales_by_product rows).map (fun p => p.1)).Nodup ∧
      (∀ k : K, k ∈ (sales_by_product rows).map (fun p => p.1) ↔
        some k ∈ rows.map (fun r => r.1))) ∧
    (∀ rows : List (Option K × ℚ), (∀ r ∈ rows, r.1 ≠ none) →
      ((cogs_by_product rows).map (fun p => p.1)).Nodup ∧
      (∀ k : K, k ∈ (cogs_by_product rows).map (fun p => p.1) ↔
        some k ∈ rows.map (fun r => r.1))) ∧
    (∀ rows : List (Option K × ℚ), (∀ r ∈ rows, r.1 ≠ none) →
      ((cogs_breakdown_by_material rows).map (fun p => p.1)).Nodup ∧
      (∀ k : K, k ∈ (cogs_breakdown_by_material rows).map (fun p => p.1) ↔
        some k ∈ rows.map (fun r => r.1))) := by
  refine ⟨fun rows _ => ?_, fun rows _ => ?_, fun rows _ => ?_⟩
  · have hkeys : (sales_by_product rows).map (fun p => p.1) =
        sortedKeys (rows.filterMap (fun r => r.1)) := by
      unfold sales_by_product
      simp [List.map_map, Function.comp_def]
    refine ⟨hkeys ▸ sortedKeys_nodup _, fun k => ?_⟩
    rw [hkeys, mem_sortedKeys, mem_map_of_filterMap]
  · have hkeys : (cogs_by_product rows).map (fun p => p.1) =
        sortedKeys (rows.filterMap (fun r => r.1)) := by
      unfold cogs_by_product groupSum1
      simp [List.map_map, Function.comp_def]
    refine ⟨hkeys ▸ sortedKeys_nodup _, fun k => ?_⟩
    rw [hkeys, mem_sortedKeys, mem_map_of_filterMap]
  · have hkeys : (cogs_breakdown_by_material rows).map (fun p => p.1) =
        sortedKeys (rows.filterMap (fun r => r.1)) := by
      unfold cogs_breakdown_by_material groupSum1
      simp [List.map_map, Function.comp_def]
    refine ⟨hkeys ▸ sortedKeys_nodup _, fun k => ?_⟩
    rw [hkeys, mem_sortedKeys, mem_map_of_filterMap]

/-- Witness for C5 at a concrete three-row table with keys 2, 1, 2. -/
theorem C5_grouped_sum_key_set_witness :
    ((sales_by_product [(some (2 : ℚ), 1, 1), (some 1, 2, 2), (some 2, 3, 3)]).map
      (fun p => p.1)).Nodup ∧
    ((1 : ℚ) ∈ (sales_by_product [(some (2 : ℚ), 1, 1), (some 1, 2, 2), (some 2, 3, 3)]).map
      (fun p => p.1) ↔
      some (1 : ℚ) ∈ [(some (2 : ℚ), 1, 1), (some 1, 2, 2), (some 2, 3, 3)].map
        (fun r => r.1)) := by
  have h := (C5_grouped_sum_key_set (K := ℚ)).1
    [(some (2 : ℚ), 1, 1), (some 1, 2, 2), (some 2, 3, 3)] (by decide)
  exact ⟨h.1, h.2 1⟩

theorem num_ne_nan (a : ℚ) : FVal.num a ≠ FVal.nan := fun h => FVal.noConfusion h

/-! ### Claim C1: ratio metrics on a zero or null denominator -/

theorem fdiv_zero_den (x : FVal) :
    FVal.div x (FVal.num 0) = FVal.nan ∨ FVal.div x (FVal.num 0) = FVal.inf ∨
      FVal.div x (FVal.num 0) = FVal.ninf := by
  cases x with
  | nan => exact Or.inl rfl
  | inf => simp [FVal.div]
  | ninf => simp [FVal.div]
  | num a =>
      simp only [FVal.div, if_pos rfl]
      split_ifs <;> tauto

theorem fdiv_nan_den (x : FVal) : FVal.div x FVal.nan = FVal.nan := by
  cases x <;> rfl

theorem fsub_nan_left (x : FVal) : FVal.sub FVal.nan x = FVal.nan := by
  cases x <;> rfl

theorem fsub_nan_right (x : FVal) : FVal.sub x FVal.nan = FVal.nan := by
  cases x <;> rfl

theorem fmul_hundred_special (x : FVal)
    (h : x = FVal.nan ∨ x = FVal.inf ∨ x = FVal.ninf) :
    FVal.mul x (FVal.num 100) = FVal.nan ∨ FVal.mul x (FVal.num 100) = FVal.inf ∨
      FVal.mul x (FVal.num 100) = FVal.ninf := by
  rcases h with rfl | rfl | rfl
  · exact Or.inl rfl
  · refine Or.inr (Or.inl ?_)
    simp [FVal.mul]
  · refine Or.inr (Or.inr ?_)
    simp [FVal.mul]

/-- C1, amended: for each ratio metric, a row whose denominator is zero or
null gets NaN or a signed infinity (NaN when the numerator is also zero or
null, the sign of the numerator otherwise); the operation is total (no
exception is modelled because pandas raises none) and the metric is in
particular never the finite number 0 for such a row. -/
theorem C1_ratio_degenerate_denominator_amended {K : Type} [LinearOrder K] :
    (∀ (rows : List DRow) (p : String × FVal), p ∈ discounts_by_order rows →
      ∃ r ∈ rows, p.1 = r.orderId ∧
        p.2 = FVal.div (FVal.sub r.listPrice r.unitPrice) r.listPrice ∧
        ((r.listPrice = FVal.num 0 ∨ r.listPrice = FVal.nan) →
          (p.2 = FVal.nan ∨ p.2 = FVal.inf ∨ p.2 = FVal.ninf))) ∧
    (∀ (rows : List (Option K × ℚ × ℚ)) (p : K × FVal), p ∈ avg_sales_price rows →
      ((rows.filter (fun r => r.1 = some p.1)).map (fun r => r.2.2)).sum = 0 →
      (p.2 = FVal.nan ∨ p.2 = FVal.inf ∨ p.2 = FVal.ninf)) ∧
    (∀ (rows : List (Option K × ℚ × ℚ)) (p : K × FVal × ℚ),
      p ∈ avg_margin_by_product rows →
      ((rows.filter (fun r => r.1 = some p.1)).map (fun r => r.2.1)).sum = 0 →
      (p.2.1 = FVal.nan ∨ p.2.1 = FVal.inf ∨ p.2.1 = FVal.ninf)) ∧
    (∀ (rows : List CRow) (c : ChurnRow), c ∈ churn_report rows →
      (c.prev_volume = FVal.nan ∨ c.prev_volume = FVal.num 0) →
      (c.pct_change = FVal.nan ∨ c.pct_change = FVal.inf ∨ c.pct_change = FVal.ninf)) := by
  refine ⟨?_, ?_, ?_, ?_⟩
  · intro rows p hp
    rcases List.mem_map.1 hp with ⟨r, hr, rfl⟩
    refine ⟨r, hr, rfl, rfl, ?_⟩
    rintro (h0 | h0) <;> rw [h0]
    · exact fdiv_zero_den _
    · exact Or.inl (by rw [fsub_nan_left, fdiv_nan_den])
  · intro rows p hp hden
    rcases List.mem_map.1 hp with ⟨k, _, rfl⟩
    simp only at hden ⊢
    rw [hden]
    exact fdiv_zero_den _
  · intro rows p hp hden
    rcases List.mem_map.1 hp with ⟨k, _, rfl⟩
    simp only at hden ⊢
    rw [hden]
    exact fmul_hundred_special _ (fdiv_zero_den _)
  · intro rows c hc hprev
    rcases List.mem_map.1 hc with ⟨q, _, rfl⟩
    simp only [finalizeChurn] at hprev ⊢
    rcases hprev with hpv | hpv <;> rw [hpv]
    · exact Or.inl (by rw [fsub_nan_right, fdiv_nan_den]; rfl)
    · have hsub : FVal.sub (FVal.num q.1.vol) (FVal.num 0) = FVal.num q.1.vol := by
        simp [FVal.sub]
      rw [hsub]
      exact fmul_hundred_special _ (fdiv_zero_den _)

/-- Witness for C1 (amended): one group with revenue 5 and total units 0;
the average sales price is +inf, which the theorem classifies as a special
value. -/
theorem C1_ratio_degenerate_denominator_witness :
    ((1 : ℚ), FVal.inf).2 = FVal.nan ∨ ((1 : ℚ), FVal.inf).2 = FVal.inf ∨
      ((1 : ℚ), FVal.inf).2 = FVal.ninf :=
  (C1_ratio_degenerate_denominator_amended (K := ℚ)).2.1
    [(some 1, 5, 0)] (1, FVal.inf)
    (by norm_num [avg_sales_price, sortedKeys, stableSort, insSorted, ble, FVal.div,
        List.dedup])
    (by norm_num)

/-- Counterexample to C1 as stated: an order line with list price 0 and unit
price 5 has a zero denominator, yet discount_pct is -inf, not the NaN
marker. -/
theorem C1_counterexample :
    discounts_by_order [⟨"o1", FVal.num 0, FVal.num 5⟩] = [("o1", FVal.ninf)] ∧
    FVal.ninf ≠ FVal.nan := by
  exact ⟨by norm_num [discounts_by_order, FVal.sub, FVal.div], by decide⟩

/-! ### Claim C8: buyback impact aggregation -/

theorem coerceFlag_filter (rows : List BRow) :
    (rows.map coerceFlag).filter (fun r => r.buyback = some true) =
      rows.filter (fun r => r.buyback = some true) := by
  rw [List.filter_map]
  have h1 : ((fun r : BRow => decide (r.buyback = some true)) ∘ coerceFlag) =
      fun r : BRow => decide (r.buyback = some true) := by
    funext r
    simp [coerceFlag]
  rw [h1]
  have h2 : ∀ r ∈ rows.filter (fun r : BRow => r.buyback = some true),
      coerceFlag r = r := by
    intro r hr
    have hflag : r.buyback = some true := by
      simpa using (List.mem_filter.1 hr).2
    cases r with
    | mk s f rv c =>
        have hf : f = some true := hflag
        simp [coerceFlag, hf]
  calc (rows.filter (fun r : BRow => decide (r.buyback = some true))).map coerceFlag
      = (rows.filter (fun r : BRow => decide (r.buyback = some true))).map id :=
        List.map_congr_left h2
    _ = _ := List.map_id _

theorem buy_filter_sku (rows : List BRow) (k : String) :
    ((rows.filter (fun r => r.buyback = some true)).filter (fun r => r.sku = some k)) =
      rows.filter (fun r => r.buyback = some true ∧ r.sku = some k) := by
  rw [List.filter_filter]
  exact List.filter_congr (fun r _ => by simp [Bool.and_comm])

/-- C8: `buyback_impact` aggregates only rows whose flag is true; rows with a
null flag are excluded exactly as if the flag were false (replacing every
null flag by an explicit False leaves the result unchanged); and each output
row satisfies net = rev - cost with rev/cost/count the sum and count over
that sku's flagged rows. -/
theorem C8_buyback_impact :
    ∀ rows : List BRow,
      buyback_impact (rows.map coerceFlag) = buyback_impact rows ∧
      ∀ b ∈ buyback_impact rows,
        b.net_impact = b.rev_impact - b.cost_impact ∧
        b.rev_impact = ((rows.filter (fun r => r.buyback = some true ∧ r.sku = some b.sku)).map
          (fun r => r.rev)).sum ∧
        b.cost_impact = ((rows.filter (fun r => r.buyback = some true ∧ r.sku = some b.sku)).map
          (fun r => r.cost)).sum ∧
        b.buyback_count = (rows.filter (fun r => r.buyback = some true ∧ r.sku = some b.sku)).length := by
  intro rows
  constructor
  · unfold buyback_impact
    rw [coerceFlag_filter]
  · intro b hb
    unfold buyback_impact at hb
    rcases List.mem_map.1 hb with ⟨k, _, rfl⟩
    refine ⟨rfl, ?_, ?_, ?_⟩
    · simp only
      rw [buy_filter_sku]
    · simp only
      rw [buy_filter_sku]
    · simp only
      rw [buy_filter_sku]

/-- Witness for C8 at a concrete table with a true, a null and a false flag:
only the true-flag row is aggregated and net = rev - cost on the output
row. -/
theorem C8_buyback_impact_witness :
    buyback_impact ([⟨some "x", some true, 10, 3⟩, ⟨some "x", none, 100, 100⟩,
        ⟨some "x", some false, 7, 7⟩].map coerceFlag) =
      buyback_impact [⟨some "x", some true, 10, 3⟩, ⟨some "x", none, 100, 100⟩,
        ⟨some "x", some false, 7, 7⟩] ∧
    (⟨"x", 1, 10, 3, 7⟩ : BOut).net_impact =
      (⟨"x", 1, 10, 3, 7⟩ : BOut).rev_impact - (⟨"x", 1, 10, 3, 7⟩ : BOut).cost_impact := by
  have hmem : (⟨"x", 1, 10, 3, 7⟩ : BOut) ∈
      buyback_impact [(⟨some "x", some true, 10, 3⟩ : BRow), ⟨some "x", none, 100, 100⟩,
        ⟨some "x", some false, 7, 7⟩] := by
    simp [buyback_impact, sortedKeys, stableSort, insSorted, ble, List.dedup,
      List.filter_cons, List.filter_nil]
    norm_num
  exact ⟨(C8_buyback_impact _).1, ((C8_buyback_impact _).2 _ hmem).1⟩

/-! ### Claim C7: threshold list validation in `qty_break_discounts` -/

theorem strictAsc_false_split (l : List Int) (h : strictAsc l = false) :
    ∃ l1 a b l2, l = l1 ++ a :: b :: l2 ∧ ¬ a < b := by
  induction l with
  | nil => simp [strictAsc] at h
  | cons x xs ih =>
      cases xs with
      | nil => simp [strictAsc] at h
      | cons y ys =>
          by_cases hxy : x < y
          · have h2 : strictAsc (y :: ys) = false := by
              simpa [strictAsc, hxy] using h
            rcases ih h2 with ⟨l1, a, b, l2, heq, hab⟩
            exact ⟨x :: l1, a, b, l2, by simp [heq], hab⟩
          · exact ⟨[], x, y, ys, rfl, hxy⟩

theorem mem_zip_tail_adj {A : Type} (s t : List A) (x y : A) :
    (x, y) ∈ (s ++ x :: y :: t).zip ((s ++ x :: y :: t).tail) := by
  induction s with
  | nil => simp [List.zip_cons_cons]
  | cons c cs ih =>
      cases cs with
      | nil => simp [List.zip_cons_cons]
      | cons d ds =>
          simp only [List.cons_append, List.tail_cons, List.zip_cons_cons] at ih ⊢
          exact List.mem_cons_of_mem _ ih

theorem any_flt_of_adjacent (bins s t : List FVal) (x y : FVal)
    (heq : bins = s ++ x :: y :: t) (hxy : FVal.flt y x = true) :
    (bins.zip bins.tail).any (fun p => FVal.flt p.2 p.1) = true := by
  subst heq
  rw [List.any_eq_true]
  exact ⟨(x, y), mem_zip_tail_adj s t x y, hxy⟩

theorem not_nodup_adj_dup {A : Type} (s t : List A) (x : A) :
    ¬ (s ++ x :: x :: t).Nodup := by
  intro h
  have hsub : [x, x].Sublist (s ++ x :: x :: t) := by
    have h1 : [x, x].Sublist (x :: x :: t) := by
      exact (List.nil_sublist t).cons₂ x |>.cons₂ x
    exact h1.trans (List.sublist_append_right s _)
  exact absurd (h.sublist hsub) (by simp)

/-- C7, amended: `qty_break_discounts` surfaces a parameter error before any
result whenever the threshold list is not strictly ascending (either bin
check of `pd.cut` fires); but an empty threshold list is not rejected: over
rows with non-negative quantities it returns a result (a single bucket). -/
theorem C7_breaks_validation_amended :
    (∀ (rows : List QRow) (breaks : List Int), strictAsc breaks = false →
      (qty_break_discounts rows breaks).isOk = false) ∧
    (∀ rows : List QRow, (∀ r ∈ rows, 0 ≤ r.qty) →
      (qty_break_discounts rows []).isOk = true) := by
  constructor
  · intro rows breaks hasc
    rcases strictAsc_false_split breaks hasc with ⟨l1, a, b, l2, heq, hab⟩
    have hbins : mkBins rows breaks =
        (FVal.num 0 :: l1.map (fun i => FVal.num (Int.cast i))) ++
          FVal.num (Int.cast a) :: FVal.num (Int.cast b) ::
            (l2.map (fun i => FVal.num (Int.cast i)) ++
              [FVal.add (seriesMax (rows.map (fun r => r.qty))) (FVal.num 1)]) := by
      subst heq
      unfold mkBins
      simp only [List.map_append, List.map_cons, List.cons_append, List.append_assoc]
    unfold qty_break_discounts
    by_cases hmono :
        ((mkBins rows breaks).zip (mkBins rows breaks).tail).any
          (fun p => FVal.flt p.2 p.1) = true
    · simp [hmono, Except.isOk, Except.toBool]
    · have hba : ¬ b < a := by
        intro hba
        exact hmono (any_flt_of_adjacent _ _ _ _ _ hbins
          (by simp only [FVal.flt, decide_eq_true_eq]; exact_mod_cast hba))
      have habeq : (a : ℚ) = (b : ℚ) := by
        exact_mod_cast le_antisymm (not_lt.1 hba) (not_lt.1 hab)
      have hnodup : ¬ (mkBins rows breaks).Nodup := by
        rw [hbins, habeq]
        exact not_nodup_adj_dup
          (FVal.num 0 :: l1.map (fun i => FVal.num (Int.cast i))) _ _
      have hlen : (mkBins rows breaks).length ≠ 2 := by
        rw [hbins]
        simp only [List.length_append, List.length_cons, List.length_map,
          List.length_singleton]
        omega
      simp [hmono, hnodup, hlen, Except.isOk, Except.toBool]
  · intro rows hq
    have hflt : FVal.flt (FVal.add (seriesMax (rows.map (fun r => r.qty))) (FVal.num 1))
        (FVal.num 0) = false := by
      cases rows with
      | nil => rfl
      | cons x xs =>
          have hx : (0 : ℚ) ≤ x.qty := hq x (by simp)
          have hM : x.qty ≤ (xs.map (fun r => r.qty)).foldl max x.qty :=
            le_foldl_max _ _
          simp only [seriesMax, List.map_cons, FVal.add, FVal.flt]
          rw [decide_eq_false_iff_not]
          push_neg
          linarith
    have hmono : ((mkBins rows []).zip (mkBins rows []).tail).any
        (fun p => FVal.flt p.2 p.1) = false := by
      simp [mkBins, hflt]
    have hlen : (mkBins rows []).length = 2 := by
      simp [mkBins]
    simp [qty_break_discounts, hmono, hlen, Except.isOk, Except.toBool]

/-- Witness for C7 at concrete inputs: descending breaks are rejected, and
the empty break list over one row of quantity 5 is accepted. -/
theorem C7_breaks_validation_witness :
    (qty_break_discounts [⟨5, FVal.num 10, FVal.num 9⟩] [50, 10]).isOk = false ∧
    (qty_break_discounts [⟨5, FVal.num 10, FVal.num 9⟩] []).isOk = true :=
  ⟨(C7_breaks_validation_amended).1 _ [50, 10] (by decide),
   (C7_breaks_validation_amended).2 _ (by norm_num)⟩

/-- Counterexample to C7 as stated: the empty threshold list is malformed per
the claim, yet the call returns a result table (one bucket, average discount
1/10) rather than surfacing an error. -/
theorem C7_counterexample :
    qty_break_discounts [⟨5, FVal.num 10, FVal.num 9⟩] [] =
      Except.ok [((FVal.num 0, FVal.num 6), FVal.num (1 / 10))] := by
  norm_num [qty_break_discounts, mkBins, seriesMax, FVal.add, FVal.flt, mkTiers,
    assignTier, FVal.fle, fmean, discountOf, FVal.sub, FVal.div, num_ne_nan,
    List.filter_cons, List.filter_nil]

/-! ### Claim C3: churn report -/

theorem aggKey_mk (k : Lex (String × Lex (Int × Int))) (v : ℚ) :
    aggKey { sku := (ofLex k).1, period := (ofLex k).2, vol := v } = k := by
  simp [aggKey]

theorem churnAgg_sorted (rows : List CRow) :
    (churnAgg rows).Pairwise (fun a b => aggLe a b = true) := by
  unfold churnAgg
  refine List.Pairwise.map _ ?_ (sortedKeys_pairwise (rows.map churnKey))
  intro a b hab
  simpa [aggLe, aggKey_mk, ble] using hab

theorem churnAgg_sku_pairwise (rows : List CRow) :
    (churnAgg rows).Pairwise (fun a b => a.sku ≤ b.sku) := by
  refine (churnAgg_sorted rows).imp ?_
  intro a b h
  have h2 : aggKey a ≤ aggKey b := by simpa [aggLe, ble] using h
  rcases (Prod.Lex.le_iff _ _).1 h2 with hlt | ⟨heq, _⟩
  · exact le_of_lt hlt
  · exact le_of_eq heq

theorem shiftGo_eq_adjPrev :
    ∀ (l seen : List AggRow),
      (seen.reverse ++ l).Pairwise (fun a b => a.sku ≤ b.sku) →
      shiftGo seen l = adjPrev seen.head? l := by
  intro l
  induction l with
  | nil => intro seen _; cases seen <;> rfl
  | cons x xs ih =>
      intro seen h
      have h2 : ((x :: seen).reverse ++ xs).Pairwise (fun a b => a.sku ≤ b.sku) := by
        have : (x :: seen).reverse ++ xs = seen.reverse ++ x :: xs := by
          simp [List.reverse_cons, List.append_assoc]
        rw [this]
        exact h
      have hind : shiftGo (x :: seen) xs = adjPrev (some x) xs := ih (x :: seen) h2
      cases seen with
      | nil =>
          simp only [shiftGo, adjPrev, List.filter_nil, List.head?_nil, Option.map_none]
          exact congrArg _ hind
      | cons p rest =>
          by_cases hps : p.sku = x.sku
          · simp only [shiftGo, adjPrev, List.head?_cons, List.filter_cons,
              decide_eq_true_eq, hps, if_pos, Option.map_some, List.head?]
            rw [hind]
            simp [hps]
          · have hax : ∀ a ∈ p :: rest, a.sku ≤ x.sku := by
              intro a ha
              have h12 := (List.pairwise_append.1 h).2.2
              exact h12 a (by simp only [List.mem_reverse]; exact ha) x (by simp)
            have hap : ∀ a ∈ rest, a.sku ≤ p.sku := by
              have h1 := (List.pairwise_append.1 h).1
              have h1r : ((p :: rest).reverse).Pairwise
                  (fun a b : AggRow => a.sku ≤ b.sku) := h1
              have := List.pairwise_reverse.1 h1r
              intro a ha
              rcases List.pairwise_cons.1 this with ⟨hp, _⟩
              exact hp a ha
            have hfilter : (p :: rest).filter (fun a => a.sku = x.sku) = [] := by
              rw [List.filter_eq_nil_iff]
              intro a ha
              simp only [decide_eq_true_eq]
              intro haeq
              rcases List.mem_cons.1 ha with rfl | ha2
              · exact hps haeq
              · apply hps
                have h1 : a.sku ≤ p.sku := hap a ha2
                have h2 : p.sku ≤ x.sku := hax p (by simp)
                rw [haeq] at h1
                exact le_antisymm h2 h1
            simp only [shiftGo, adjPrev, List.head?_cons, hfilter, List.head?_nil,
              Option.map_none, hps, if_neg]
            rw [hind]
            simp [hps]

theorem shiftGo_map_fst :
    ∀ (l seen : List AggRow), (shiftGo seen l).map Prod.fst = l := by
  intro l
  induction l with
  | nil => intro seen; rfl
  | cons x xs ih => intro seen; simp [shiftGo, ih]

theorem churn_stableSort_id (rows : List CRow) :
    stableSort aggLe (churnAgg rows) = churnAgg rows :=
  stableSort_of_sorted _ _ (churnAgg_sorted rows)

theorem churnKey_eq_iff (r : CRow) (s : String) (p : Lex (Int × Int)) :
    churnKey r = toLex (s, p) ↔ r.sku = s ∧ periodQ r = p := by
  unfold churnKey
  constructor
  · intro h
    have := congrArg ofLex h
    simp at this
    exact ⟨this.1, this.2⟩
  · rintro ⟨h1, h2⟩
    rw [h1, h2]

theorem mem_churnAgg (rows : List CRow) (a : AggRow) (ha : a ∈ churnAgg rows) :
    (∃ r ∈ rows, r.sku = a.sku ∧ periodQ r = a.period) ∧
    a.vol = ((rows.filter (fun r => r.sku = a.sku ∧ periodQ r = a.period)).map
      (fun r => r.vol)).sum := by
  unfold churnAgg at ha
  rcases List.mem_map.1 ha with ⟨k, hk, rfl⟩
  have hk2 : k ∈ rows.map churnKey := by
    rw [← mem_sortedKeys]
    exact hk
  rcases List.mem_map.1 hk2 with ⟨r, hr, hkey⟩
  constructor
  · refine ⟨r, hr, ?_⟩
    have : churnKey r = toLex ((ofLex k).1, (ofLex k).2) := by
      rw [hkey]
      simp
    exact (churnKey_eq_iff r _ _).1 this
  · have hfil : rows.filter (fun x => churnKey x = k) =
        rows.filter (fun x => x.sku = (ofLex k).1 ∧ periodQ x = (ofLex k).2) := by
      apply List.filter_congr
      intro x _
      have hiff : (churnKey x = k) ↔ (x.sku = (ofLex k).1 ∧ periodQ x = (ofLex k).2) := by
        have hkk : k = toLex ((ofLex k).1, (ofLex k).2) := by simp
        constructor
        · intro hceq
          exact (churnKey_eq_iff x _ _).1 (by rw [← hkk]; exact hceq)
        · intro hpair
          rw [hkk]
          exact (churnKey_eq_iff x _ _).2 hpair
      simp [hiff]
    simp only
    rw [hfil]

theorem exists_mem_churnAgg (rows : List CRow) (r : CRow) (hr : r ∈ rows) :
    ∃ a ∈ churnAgg rows, a.sku = r.sku ∧ a.period = periodQ r := by
  refine ⟨AggRow.mk (ofLex (churnKey r)).1 (ofLex (churnKey r)).2
    (((rows.filter (fun x => churnKey x = churnKey r)).map (fun x => x.vol)).sum),
    ?_, ?_, ?_⟩
  · unfold churnAgg
    exact List.mem_map_of_mem _ ((mem_sortedKeys _ _).2 (List.mem_map_of_mem _ hr))
  · simp [churnKey]
  · simp [churnKey, periodQ]

theorem mem_churn_report_fst (rows : List CRow) (p : AggRow × Option ℚ)
    (hp : p ∈ shiftWithin (stableSort aggLe (churnAgg rows))) : p.1 ∈ churnAgg rows := by
  have h1 : p.1 ∈ (shiftGo [] (churnAgg rows)).map Prod.fst := by
    rw [churn_stableSort_id] at hp
    exact List.mem_map_of_mem _ hp
  rwa [shiftGo_map_fst] at h1

/-- C3: `churn_report` refines the spec-side description (same per-(sku,
period) aggregate, "previous" is literally the immediately preceding present
period of the same sku in chronological order, absent periods skipped); the
volume of each output row is the sum of the input volumes of its (sku,
period); the output carries exactly the (sku, period) pairs present in the
input; and the concrete two-quarter scenario produces delta 50 and
pct_change 50 on the Q2 row and NaN prev/delta on the Q1 row. -/
theorem C3_churn_report :
    (∀ rows : List CRow, churn_report rows = churnSpecSide rows) ∧
    (∀ (rows : List CRow) (c : ChurnRow), c ∈ churn_report rows →
      c.vol = ((rows.filter (fun r => r.sku = c.sku ∧ periodQ r = c.period)).map
        (fun r => r.vol)).sum) ∧
    (∀ (rows : List CRow) (s : String) (p : Lex (Int × Int)),
      (∃ c ∈ churn_report rows, c.sku = s ∧ c.period = p) ↔
      (∃ r ∈ rows, r.sku = s ∧ periodQ r = p)) ∧
    churn_report [⟨"A", 2024, 2, 100⟩, ⟨"A", 2024, 5, 150⟩] =
      [⟨"A", toLex (2024, 1), 100, FVal.nan, FVal.nan, FVal.nan⟩,
       ⟨"A", toLex (2024, 2), 150, FVal.num 100, FVal.num 50, FVal.num 50⟩] := by
  refine ⟨?_, ?_, ?_, ?_⟩
  · intro rows
    unfold churn_report churnSpecSide shiftWithin
    rw [churn_stableSort_id]
    exact congrArg _ (shiftGo_eq_adjPrev (churnAgg rows) []
      (by simpa using churnAgg_sku_pairwise rows))
  · intro rows c hc
    unfold churn_report at hc
    rcases List.mem_map.1 hc with ⟨p, hp, rfl⟩
    have ha := mem_churnAgg rows p.1 (mem_churn_report_fst rows p hp)
    exact ha.2
  · intro rows s p
    constructor
    · rintro ⟨c, hc, hs, hp⟩
      unfold churn_report at hc
      rcases List.mem_map.1 hc with ⟨q, hq, rfl⟩
      have ha := (mem_churnAgg rows q.1 (mem_churn_report_fst rows q hq)).1
      rcases ha with ⟨r, hr, h1, h2⟩
      exact ⟨r, hr, h1.trans hs, h2.trans hp⟩
    · rintro ⟨r, hr, hs, hp⟩
      rcases exists_mem_churnAgg rows r hr with ⟨a, ha, h1, h2⟩
      have hmem : a ∈ (shiftGo [] (churnAgg rows)).map Prod.fst := by
        rw [shiftGo_map_fst]
        exact ha
      rcases List.mem_map.1 hmem with ⟨q, hq, hfst⟩
      refine ⟨finalizeChurn q, ?_, ?_, ?_⟩
      · unfold churn_report shiftWithin
        rw [churn_stableSort_id]
        exact List.mem_map_of_mem _ hq
      · show q.1.sku = s
        rw [hfst, h1, hs]
      · show q.1.period = p
        rw [hfst, h2, hp]
  · have hle : (toLex ("A", toLex ((2024 : ℤ), (1 : ℤ))) :
        Lex (String × Lex (ℤ × ℤ))) ≤ toLex ("A", toLex (2024, 2)) := by
      rw [Prod.Lex.le_iff]
      right
      refine ⟨rfl, ?_⟩
      rw [Prod.Lex.le_iff]
      right
      exact ⟨rfl, by norm_num⟩
    have hne : ¬ ((toLex ("A", toLex ((2024 : ℤ), (1 : ℤ))) :
        Lex (String × Lex (ℤ × ℤ))) = toLex ("A", toLex (2024, 2))) := by
      intro hh
      have h2 := congrArg (fun k : Lex (String × Lex (ℤ × ℤ)) => (ofLex (ofLex k).2).2) hh
      norm_num at h2
    norm_num [churn_report, churnAgg, churnKey, periodQ, sortedKeys, stableSort, insSorted,
      ble, shiftWithin, shiftGo, finalizeChurn, aggLe, aggKey, FVal.sub, FVal.div, FVal.mul,
      List.dedup_cons_of_not_mem, hle, hne]

/-- Witness for C3 at concrete tables: the refinement at a two-sku table, and
the volume conjunct discharged at a concrete member of the scenario
output. -/
theorem C3_churn_report_witness :
    churn_report [⟨"B", 2024, 7, 10⟩, ⟨"A", 2024, 1, 4⟩] =
      churnSpecSide [⟨"B", 2024, 7, 10⟩, ⟨"A", 2024, 1, 4⟩] ∧
    (⟨"A", toLex (2024, 1), 100, FVal.nan, FVal.nan, FVal.nan⟩ : ChurnRow).vol =
      ((([⟨"A", 2024, 2, 100⟩, ⟨"A", 2024, 5, 150⟩] : List CRow).filter (fun r =>
        r.sku = (⟨"A", toLex (2024, 1), 100, FVal.nan, FVal.nan, FVal.nan⟩ : ChurnRow).sku ∧
        periodQ r = (⟨"A", toLex (2024, 1), 100, FVal.nan, FVal.nan,
          FVal.nan⟩ : ChurnRow).period)).map (fun r => r.vol)).sum := by
  have hmem : (⟨"A", toLex (2024, 1), 100, FVal.nan, FVal.nan, FVal.nan⟩ : ChurnRow) ∈
      churn_report [⟨"A", 2024, 2, 100⟩, ⟨"A", 2024, 5, 150⟩] := by
    rw [(C3_churn_report).2.2.2]
    simp
  exact ⟨(C3_churn_report).1 _, (C3_churn_report).2.1 _ _ hmem⟩

/-! ### Claim C4: quantity-tier bucketing -/

/-- C4: with breaks [10, 50, 100] and maximum observed quantity 237 (over
non-negative quantities), `qty_break_discounts` succeeds; the buckets are the
half-open intervals [0,10), [10,50), [50,100), [100,238); a quantity of 100
falls in the fourth bucket; every row falls in a bucket that contains its
quantity; and each bucket's avg_discount is the mean of the per-row
discount_pct over the rows assigned to it. -/
theorem C4_qty_break_buckets :
    ∀ rows : List QRow,
      seriesMax (rows.map (fun r => r.qty)) = FVal.num 237 →
      (∀ r ∈ rows, 0 ≤ r.qty) →
      ∃ l, qty_break_discounts rows [10, 50, 100] = Except.ok l ∧
        l.map (fun p => p.1) =
          [(FVal.num 0, FVal.num 10), (FVal.num 10, FVal.num 50),
           (FVal.num 50, FVal.num 100), (FVal.num 100, FVal.num 238)] ∧
        (∀ r ∈ rows, r.qty = 100 →
          assignTier r.qty (mkTiers (mkBins rows [10, 50, 100])) =
            some (FVal.num 100, FVal.num 238)) ∧
        (∀ r ∈ rows, ∃ lo hi, assignTier r.qty (mkTiers (mkBins rows [10, 50, 100])) =
          some (lo, hi) ∧ FVal.fle lo (FVal.num r.qty) = true ∧
          FVal.flt (FVal.num r.qty) hi = true) ∧
        (∀ p ∈ l, p.2 = fmean ((rows.filter (fun r =>
          assignTier r.qty (mkTiers (mkBins rows [10, 50, 100])) = some p.1)).map
            discountOf)) := by
  intro rows hmax hpos
  have hbins : mkBins rows [10, 50, 100] =
      [FVal.num 0, FVal.num 10, FVal.num 50, FVal.num 100, FVal.num 238] := by
    unfold mkBins
    rw [hmax]
    norm_num [FVal.add]
  have htiers : mkTiers (mkBins rows [10, 50, 100]) =
      [(FVal.num 0, FVal.num 10), (FVal.num 10, FVal.num 50),
       (FVal.num 50, FVal.num 100), (FVal.num 100, FVal.num 238)] := by
    rw [hbins]
    rfl
  have hc1 : (((mkBins rows [10, 50, 100]).zip (mkBins rows [10, 50, 100]).tail).any
      (fun p => FVal.flt p.2 p.1)) = false := by
    rw [hbins]
    norm_num [FVal.flt]
  have hc2 : ¬ (¬ (mkBins rows [10, 50, 100]).Nodup ∧
      (mkBins rows [10, 50, 100]).length ≠ 2) := by
    rw [hbins]
    norm_num [List.nodup_cons]
  have hok : qty_break_discounts rows [10, 50, 100] =
      Except.ok ((mkTiers (mkBins rows [10, 50, 100])).map (fun iv =>
        (iv, fmean ((rows.filter (fun r =>
          assignTier r.qty (mkTiers (mkBins rows [10, 50, 100])) = some iv)).map
            discountOf)))) := by
    simp only [qty_break_discounts]
    rw [hc1]
    simp only [Bool.false_eq_true, if_false]
    rw [if_neg hc2]
  refine ⟨_, hok, ?_, ?_, ?_, ?_⟩
  · rw [htiers]
    simp
  · intro r hr h100
    rw [htiers, h100]
    norm_num [assignTier, List.find?, FVal.fle, FVal.flt]
  · intro r hr
    have h0 : (0 : ℚ) ≤ r.qty := hpos r hr
    have hub : r.qty ≤ 237 :=
      seriesMax_bound _ 237 hmax r.qty (List.mem_map_of_mem _ hr)
    rw [htiers]
    by_cases h10 : r.qty < 10
    · exact ⟨FVal.num 0, FVal.num 10,
        by simp [assignTier, List.find?, FVal.fle, FVal.flt, h0, h10],
        by simp [FVal.fle, h0], by simp [FVal.flt, h10]⟩
    · by_cases h50 : r.qty < 50
      · have hge : (10 : ℚ) ≤ r.qty := not_lt.1 h10
        exact ⟨FVal.num 10, FVal.num 50,
          by simp [assignTier, List.find?, FVal.fle, FVal.flt, h10, hge, h50],
          by simp [FVal.fle, hge], by simp [FVal.flt, h50]⟩
      · by_cases h100 : r.qty < 100
        · have hge : (50 : ℚ) ≤ r.qty := not_lt.1 h50
          exact ⟨FVal.num 50, FVal.num 100,
            by simp [assignTier, List.find?, FVal.fle, FVal.flt, h10, h50, hge, h100],
            by simp [FVal.fle, hge], by simp [FVal.flt, h100]⟩
        · have hge : (100 : ℚ) ≤ r.qty := not_lt.1 h100
          have hlt : r.qty < 238 := lt_of_le_of_lt hub (by norm_num)
          exact ⟨FVal.num 100, FVal.num 238,
            by simp [assignTier, List.find?, FVal.fle, FVal.flt, h10, h50, h100, hge, hlt],
            by simp [FVal.fle, hge], by simp [FVal.flt, hlt]⟩
  · intro p hp
    rcases List.mem_map.1 hp with ⟨iv, _, rfl⟩
    rfl

/-- Witness for C4 at a concrete two-row table with quantities 237 and 100. -/
theorem C4_qty_break_buckets_witness :
    ∃ l, qty_break_discounts [⟨237, FVal.num 10, FVal.num 9⟩,
        ⟨100, FVal.num 10, FVal.num 8⟩] [10, 50, 100] = Except.ok l ∧
      l.map (fun p => p.1) =
        [(FVal.num 0, FVal.num 10), (FVal.num 10, FVal.num 50),
         (FVal.num 50, FVal.num 100), (FVal.num 100, FVal.num 238)] ∧
      (∀ r ∈ [(⟨237, FVal.num 10, FVal.num 9⟩ : QRow), ⟨100, FVal.num 10, FVal.num 8⟩],
        r.qty = 100 →
        assignTier r.qty (mkTiers (mkBins [⟨237, FVal.num 10, FVal.num 9⟩,
          ⟨100, FVal.num 10, FVal.num 8⟩] [10, 50, 100])) =
          some (FVal.num 100, FVal.num 238)) ∧
      (∀ r ∈ [(⟨237, FVal.num 10, FVal.num 9⟩ : QRow), ⟨100, FVal.num 10, FVal.num 8⟩],
        ∃ lo hi, assignTier r.qty (mkTiers (mkBins [⟨237, FVal.num 10, FVal.num 9⟩,
          ⟨100, FVal.num 10, FVal.num 8⟩] [10, 50, 100])) = some (lo, hi) ∧
          FVal.fle lo (FVal.num r.qty) = true ∧ FVal.flt (FVal.num r.qty) hi = true) ∧
      (∀ p ∈ l, p.2 = fmean (([(⟨237, FVal.num 10, FVal.num 9⟩ : QRow),
        ⟨100, FVal.num 10, FVal.num 8⟩].filter (fun r =>
          assignTier r.qty (mkTiers (mkBins [⟨237, FVal.num 10, FVal.num 9⟩,
            ⟨100, FVal.num 10, FVal.num 8⟩] [10, 50, 100])) = some p.1)).map
              discountOf)) :=
  C4_qty_break_buckets _ (by norm_num [seriesMax]) (by norm_num)

/-! ### Claims C2 and C10: moving average -/

theorem length_rollvals (vals : List ℚ) (w : Nat) :
    (rollvals vals w).length = vals.length := by
  simp [rollvals]

theorem rowle_total {K D : Type} [LinearOrder K] [LinearOrder D] :
    ∀ a b : SRow K D, rowle a b = true ∨ rowle b a = true :=
  fun _ _ => ble_total _ _

theorem rowle_trans {K D : Type} [LinearOrder K] [LinearOrder D] :
    ∀ a b c : SRow K D, rowle a b = true → rowle b c = true → rowle a c = true :=
  fun _ _ _ => ble_trans _ _ _

theorem flatMap_eq_map_of_forall_singleton {A B : Type} (F : A → List B) (G : A → B) :
    ∀ l : List A, (∀ r ∈ l, F r = [G r]) → l.flatMap F = l.map G := by
  intro l
  induction l with
  | nil => intro _; rfl
  | cons x xs ih =>
      intro h
      have hx : F x = [G x] := h x (by simp)
      have hxs := ih (fun r hr => h r (by simp [hr]))
      simp [List.flatMap_cons, hx, hxs]

theorem zip_filter_fst {A B : Type} (p : A → Bool) :
    ∀ (g : List A) (rv : List B), g.length = rv.length →
      ((g.zip rv).filter (fun q => p q.1)).map Prod.fst = g.filter p := by
  intro g
  induction g with
  | nil => intro rv _; simp
  | cons x xs ih =>
      intro rv hlen
      cases rv with
      | nil => simp at hlen
      | cons v vs =>
          have hlen2 : xs.length = vs.length := by simpa using hlen
          by_cases hx : p x
          · simp [List.zip_cons_cons, List.filter_cons, hx, ih vs hlen2]
          · simp [List.zip_cons_cons, List.filter_cons, hx, ih vs hlen2]

theorem eq_singleton_of_map_fst {A B : Type} (l : List (A × B)) (a : A)
    (h : l.map Prod.fst = [a]) : ∃ b, l = [(a, b)] := by
  cases l with
  | nil => simp at h
  | cons x xs =>
      cases xs with
      | nil =>
          refine ⟨x.2, ?_⟩
          have hx : x.1 = a := by simpa using h
          rw [← hx]
      | cons y ys => simp at h

theorem filter_eq_singleton_of_nodup_key {A E : Type} [DecidableEq E] (key : A → E) :
    ∀ (g : List A) (r : A), r ∈ g → ((g.map key).Nodup) →
      g.filter (fun a => key a = key r) = [r] := by
  intro g
  induction g with
  | nil => intro r hr; simp at hr
  | cons x xs ih =>
      intro r hr hnd
      have hhead : key x ∉ xs.map key := (List.nodup_cons.1 hnd).1
      rcases List.mem_cons.1 hr with rfl | hr2
      · have hrest : xs.filter (fun a => key a = key r) = [] := by
          rw [List.filter_eq_nil_iff]
          intro a ha
          simp only [decide_eq_true_eq]
          intro hak
          exact hhead (by rw [← hak]; exact List.mem_map_of_mem _ ha)
        simp [List.filter_cons, hrest]
      · have hxr : ¬ (key x = key r) := by
          intro hxk
          exact hhead (by rw [hxk]; exact List.mem_map_of_mem _ hr2)
        simp only [List.filter_cons, decide_eq_true_eq, hxr, if_false]
        exact ih r hr2 (List.nodup_cons.1 hnd).2

theorem flatMap_filter_single {K B : Type} :
    ∀ (ks : List K) (h : K → List B) (s : K), s ∈ ks → ks.Nodup →
      (∀ k ∈ ks, k ≠ s → h k = []) →
      ks.flatMap h = h s := by
  intro ks
  induction ks with
  | nil =>
      intro h s hs
      simp at hs
  | cons k ks ih =>
      intro h s hs hnd hother
      rcases List.mem_cons.1 hs with rfl | hks
      · have hrest : ks.flatMap h = [] := by
          rw [List.flatMap_eq_nil_iff]
          intro x hx
          exact hother x (by simp [hx]) (fun hxs => (List.nodup_cons.1 hnd).1 (hxs ▸ hx))
        rw [List.flatMap_cons, hrest, List.append_nil]
      · have hk : h k = [] :=
          hother k (by simp) (fun hkr => (List.nodup_cons.1 hnd).1 (hkr ▸ hks))
        rw [List.flatMap_cons, hk, List.nil_append]
        exact ih h s hks (List.nodup_cons.1 hnd).2 (fun k2 hk2 => hother k2 (by simp [hk2]))

theorem group_dates_nodup {K D : Type} [LinearOrder K] [LinearOrder D]
    (df : List (SRow K D)) (s : K)
    (h : (df.map (fun r => (r.sku, r.date))).Nodup) :
    ((df.filter (fun x => x.sku = s)).map (fun x => x.date)).Nodup := by
  set g := df.filter (fun x => x.sku = s) with hg
  have hkeys : (g.map (fun r => (r.sku, r.date))).Nodup :=
    ((List.filter_sublist df).map _).nodup h
  have hcongr : g.map (fun r => (r.sku, r.date)) =
      (g.map (fun r => r.date)).map (fun d => (s, d)) := by
    rw [List.map_map]
    apply List.map_congr_left
    intro a ha
    have : a.sku = s := by
      have := (List.mem_filter.1 (hg ▸ ha)).2
      simpa using this
    simp [Function.comp, this]
  rw [hcongr] at hkeys
  exact List.Nodup.of_map _ hkeys

/-- The left merge on (sku, date): with pairwise-distinct (sku, date) keys
each sorted row matches exactly one rolling row, namely the rolling value of
its own group at its date. -/
theorem moving_avg_characterization {K D : Type} [LinearOrder K] [LinearOrder D]
    (rows : List (SRow K D)) (w : Nat)
    (h : (rows.map (fun r => (r.sku, r.date))).Nodup) :
    moving_avg_volume rows w = (stableSort rowle rows).map (fun r =>
      (r, groupRollLookup ((stableSort rowle rows).filter (fun x => x.sku = r.sku))
        w r.date)) := by
  unfold moving_avg_volume
  have hperm := stableSort_perm (rowle (K := K) (D := D)) rows
  have hdfkeys : ((stableSort rowle rows).map (fun r => (r.sku, r.date))).Nodup :=
    (hperm.map _).nodup_iff.2 h
  apply flatMap_eq_map_of_forall_singleton
  intro r hr
  set df := stableSort rowle rows with hdf
  set g := df.filter (fun x => x.sku = r.sku) with hgdef
  set rv := rollvals (g.map (fun x => x.vol)) w with hrv
  have hrg : r ∈ g := by
    rw [hgdef]
    exact List.mem_filter.2 ⟨hr, by simp⟩
  have hgd : (g.map (fun x => x.date)).Nodup := group_dates_nodup df r.sku hdfkeys
  have hlen : g.length = rv.length := by
    rw [hrv, length_rollvals, List.length_map]
  have hgfil : g.filter (fun a => a.date = r.date) = [r] :=
    filter_eq_singleton_of_nodup_key (fun x => x.date) g r hrg hgd
  have hzfst : ((g.zip rv).filter (fun q => q.1.date = r.date)).map Prod.fst = [r] := by
    rw [zip_filter_fst (fun a => a.date = r.date) g rv hlen]
    exact hgfil
  rcases eq_singleton_of_map_fst _ _ hzfst with ⟨v, hzf⟩
  have hlook : groupRollLookup g w r.date = v := by
    unfold groupRollLookup
    rw [← hrv, hzf]
    rfl
  -- the rolling frame filtered down to r's key
  have hmatch : ((sortedKeys (df.map (fun x => x.sku))).flatMap (fun k =>
      ((df.filter (fun x => x.sku = k)).zip
        (rollvals ((df.filter (fun x => x.sku = k)).map (fun x => x.vol)) w)).map
          (fun p => (k, p.1.date, p.2)))).filter
      (fun t => t.1 = r.sku ∧ t.2.1 = r.date) = [(r.sku, r.date, v)] := by
    rw [List.filter_flatMap]
    have hsku : r.sku ∈ sortedKeys (df.map (fun x => x.sku)) :=
      (mem_sortedKeys _ _).2 (List.mem_map_of_mem _ hr)
    have hnd : (sortedKeys (df.map (fun x => x.sku))).Nodup := sortedKeys_nodup _
    have hother : ∀ k ∈ sortedKeys (df.map (fun x => x.sku)), k ≠ r.sku →
        (((df.filter (fun x => x.sku = k)).zip
          (rollvals ((df.filter (fun x => x.sku = k)).map (fun x => x.vol)) w)).map
            (fun p => (k, p.1.date, p.2))).filter
          (fun t => t.1 = r.sku ∧ t.2.1 = r.date) = [] := by
      intro k _ hk
      rw [List.filter_eq_nil_iff]
      intro t ht
      rcases List.mem_map.1 ht with ⟨q, _, rfl⟩
      simp [hk]
    have hself : (((df.filter (fun x => x.sku = r.sku)).zip
        (rollvals ((df.filter (fun x => x.sku = r.sku)).map (fun x => x.vol)) w)).map
          (fun p => (r.sku, p.1.date, p.2))).filter
        (fun t => t.1 = r.sku ∧ t.2.1 = r.date) = [(r.sku, r.date, v)] := by
      rw [List.filter_map]
      have hpred : ((fun t : K × D × Option ℚ => decide (t.1 = r.sku ∧ t.2.1 = r.date)) ∘
          (fun p : SRow K D × Option ℚ => (r.sku, p.1.date, p.2))) =
          (fun q : SRow K D × Option ℚ => decide (q.1.date = r.date)) := by
        funext q
        simp
      rw [hpred, ← hgdef, ← hrv, hzf]
      rfl
    exact (flatMap_filter_single _ _ r.sku hsku hnd hother).trans hself
  rw [hmatch]
  simp [hlook]

/-- C2, amended: for every input table with pairwise-distinct (sku, date)
pairs, `moving_avg_volume` returns exactly one output row per input row (in
sorted order); the rolling value attached to each row is looked up inside
that row's own group only (never another sku's rows); and each sku
contributes exactly as many output rows as it has input rows. -/
theorem C2_moving_avg_row_count_amended {K D : Type} [LinearOrder K] [LinearOrder D] :
    ∀ (rows : List (SRow K D)) (w : Nat),
      (rows.map (fun r => (r.sku, r.date))).Nodup →
      moving_avg_volume rows w = (stableSort rowle rows).map (fun r =>
        (r, groupRollLookup ((stableSort rowle rows).filter (fun x => x.sku = r.sku))
          w r.date)) ∧
      (moving_avg_volume rows w).length = rows.length ∧
      (∀ s : K, ((moving_avg_volume rows w).filter (fun q => q.1.sku = s)).length =
        (rows.filter (fun r => r.sku = s)).length) := by
  intro rows w h
  have hchar := moving_avg_characterization rows w h
  have hperm := stableSort_perm (rowle (K := K) (D := D)) rows
  refine ⟨hchar, ?_, ?_⟩
  · rw [hchar, List.length_map]
    exact hperm.length_eq
  · intro s
    rw [hchar, List.filter_map]
    have hpred : ((fun q : SRow K D × Option ℚ => decide (q.1.sku = s)) ∘
        (fun r : SRow K D => (r, groupRollLookup
          ((stableSort rowle rows).filter (fun x => x.sku = r.sku)) w r.date))) =
        (fun r : SRow K D => decide (r.sku = s)) := by
      funext r
      rfl
    rw [hpred, List.length_map]
    exact (hperm.filter _).length_eq

/-- Counterexample to C2 as stated: two rows sharing the (sku, date) pair
(1, 0) make the left merge in `moving_avg_volume` match each of the two
sorted rows against both rolling rows, so a 2-row input yields 4 output
rows. -/
theorem C2_counterexample :
    (moving_avg_volume (K := ℚ) (D := ℚ) [⟨1, 0, 5⟩, ⟨1, 0, 7⟩] 4).length = 4 ∧
    ([(⟨1, 0, 5⟩ : SRow ℚ ℚ), ⟨1, 0, 7⟩]).length = 2 := by
  constructor
  · decide
  · rfl

/-- Witness for C2 (amended) at a concrete duplicate-free two-row table. -/
theorem C2_moving_avg_row_count_witness :
    (moving_avg_volume (K := ℚ) (D := ℚ) [⟨1, 2, 5⟩, ⟨1, 1, 7⟩] 4).length = 2 ∧
    ((moving_avg_volume (K := ℚ) (D := ℚ) [⟨1, 2, 5⟩, ⟨1, 1, 7⟩] 4).filter
      (fun q => q.1.sku = 1)).length =
      ([(⟨1, 2, 5⟩ : SRow ℚ ℚ), ⟨1, 1, 7⟩].filter (fun r => r.sku = 1)).length := by
  have h := C2_moving_avg_row_count_amended [(⟨1, 2, 5⟩ : SRow ℚ ℚ), ⟨1, 1, 7⟩] 4
    (by decide)
  exact ⟨h.2.1, h.2.2 1⟩

theorem count_le_of_sorted_get {K D : Type} [LinearOrder D] :
    ∀ (g : List (SRow K D)) (i : Nat) (hi : i < g.length),
      (g.map (fun x => x.date)).Nodup →
      g.Pairwise (fun a b => a.date ≤ b.date) →
      (g.filter (fun x => x.date ≤ (g.get ⟨i, hi⟩).date)).length = i + 1 := by
  intro g
  induction g with
  | nil =>
      intro i hi
      simp at hi
  | cons x xs ih =>
      intro i hi hnd hsorted
      have hhead : x.date ∉ xs.map (fun y => y.date) := (List.nodup_cons.1 hnd).1
      cases i with
      | zero =>
          have hrest : xs.filter (fun y => y.date ≤ x.date) = [] := by
            rw [List.filter_eq_nil_iff]
            intro a ha
            simp only [decide_eq_true_eq]
            intro hle
            have hge : x.date ≤ a.date :=
              (List.pairwise_cons.1 hsorted).1 a ha
            have heq : a.date = x.date := le_antisymm hle hge
            exact hhead (heq ▸ List.mem_map_of_mem _ ha)
          simp [List.filter_cons, hrest]
      | succ j =>
          have hj : j < xs.length := by simpa using hi
          have hmem : xs.get ⟨j, hj⟩ ∈ xs := List.get_mem xs j hj
          have hxle : x.date ≤ (xs.get ⟨j, hj⟩).date :=
            (List.pairwise_cons.1 hsorted).1 _ hmem
          have hrec := ih j hj (List.nodup_cons.1 hnd).2 (List.pairwise_cons.1 hsorted).2
          simp only [List.get_cons_succ, List.filter_cons, decide_eq_true_eq, hxle,
            if_pos, List.length_cons]
          rw [hrec]

theorem zip_filter_head_at {K D B : Type} [DecidableEq D] :
    ∀ (g : List (SRow K D)) (rv : List B) (i : Nat) (hi : i < g.length)
      (hirv : i < rv.length),
      (g.map (fun x => x.date)).Nodup →
      ((g.zip rv).filter (fun q => q.1.date = (g.get ⟨i, hi⟩).date)).head? =
        some (g.get ⟨i, hi⟩, rv.get ⟨i, hirv⟩) := by
  intro g
  induction g with
  | nil =>
      intro rv i hi
      simp at hi
  | cons x xs ih =>
      intro rv i hi hirv hnd
      cases rv with
      | nil => simp at hirv
      | cons v vs =>
          have hhead : x.date ∉ xs.map (fun y => y.date) := (List.nodup_cons.1 hnd).1
          cases i with
          | zero => simp [List.zip_cons_cons, List.filter_cons]
          | succ j =>
              have hj : j < xs.length := by simpa using hi
              have hjv : j < vs.length := by simpa using hirv
              have hne : ¬ (x.date = (xs.get ⟨j, hj⟩).date) := by
                intro heq
                have hmem : xs.get ⟨j, hj⟩ ∈ xs := List.get_mem xs j hj
                exact hhead (by
                  rw [heq]
                  exact List.mem_map_of_mem _ hmem)
              simp only [List.zip_cons_cons, List.filter_cons, decide_eq_true_eq,
                List.get_cons_succ]
              rw [if_neg hne]
              exact ih vs j hj hjv (List.nodup_cons.1 hnd).2

theorem rollvals_get_none (vals : List ℚ) (w i : Nat)
    (hi : i < (rollvals vals w).length) (hlt : i + 1 < w) :
    (rollvals vals w).get ⟨i, hi⟩ = none := by
  have hi2 : i < vals.length := by
    rw [length_rollvals] at hi
    exact hi
  simp only [rollvals, List.get_eq_getElem, List.getElem_map, List.getElem_range]
  rw [if_neg (by omega)]

/-- C10: with pairwise-distinct (sku, date) keys, every output row of
`moving_avg_volume` whose group holds fewer than `window` observations at or
before its date carries the NaN marker (Option.none in the embedding), never
a partial-window average. -/
theorem C10_strict_window_nan {K D : Type} [LinearOrder K] [LinearOrder D] :
    ∀ (rows : List (SRow K D)) (w : Nat) (p : SRow K D × Option ℚ),
      (rows.map (fun r => (r.sku, r.date))).Nodup →
      p ∈ moving_avg_volume rows w →
      ((stableSort rowle rows).filter
        (fun x => x.sku = p.1.sku ∧ x.date ≤ p.1.date)).length < w →
      p.2 = none := by
  intro rows w p h hp hcount
  rw [moving_avg_characterization rows w h] at hp
  rcases List.mem_map.1 hp with ⟨r, hr, rfl⟩
  simp only at hcount ⊢
  have hdfkeys : ((stableSort rowle rows).map (fun r => (r.sku, r.date))).Nodup :=
    ((stableSort_perm rowle rows).map _).nodup_iff.2 h
  set df := stableSort rowle rows with hdf
  set g := df.filter (fun x => x.sku = r.sku) with hgdef
  have hrg : r ∈ g := List.mem_filter.2 ⟨hr, by simp⟩
  have hgd : (g.map (fun x => x.date)).Nodup := group_dates_nodup df r.sku hdfkeys
  have hgsorted : g.Pairwise (fun a b => a.date ≤ b.date) := by
    have hdfsorted : df.Pairwise (fun a b => rowle a b = true) :=
      stableSort_pairwise rowle rowle_total rowle_trans rows
    have hgsub : g.Pairwise (fun a b => rowle a b = true) :=
      hdfsorted.sublist (List.filter_sublist df)
    refine hgsub.imp_of_mem ?_
    intro a b ha hb hab
    have hsa : a.sku = r.sku := by simpa using (List.mem_filter.1 ha).2
    have hsb : b.sku = r.sku := by simpa using (List.mem_filter.1 hb).2
    have hle : toLex (a.sku, a.date) ≤ toLex (b.sku, b.date) := by
      simpa [rowle, ble] using hab
    rcases (Prod.Lex.le_iff _ _).1 hle with hlt | ⟨_, hd⟩
    · rw [hsa, hsb] at hlt
      exact absurd hlt (lt_irrefl _)
    · exact hd
  have hff : df.filter (fun x => x.sku = r.sku ∧ x.date ≤ r.date) =
      g.filter (fun x => x.date ≤ r.date) := by
    rw [hgdef, List.filter_filter]
    apply List.filter_congr
    intro a _
    simp [Bool.and_comm]
  rcases List.mem_iff_get.1 hrg with ⟨⟨i, hi⟩, hgi⟩
  have hcnt : i + 1 < w := by
    have hc2 := count_le_of_sorted_get g i hi hgd hgsorted
    rw [hgi] at hc2
    rw [hff, hc2] at hcount
    exact hcount
  have hirv : i < (rollvals (g.map (fun x => x.vol)) w).length := by
    rw [length_rollvals, List.length_map]
    exact hi
  unfold groupRollLookup
  have hhead := zip_filter_head_at g (rollvals (g.map (fun x => x.vol)) w) i hi hirv hgd
  rw [hgi] at hhead
  rw [hhead]
  have hnone := rollvals_get_none (g.map (fun x => x.vol)) w i hirv hcnt
  simpa using hnone

/-- Witness for C10: a single-row group with window 4; its one output row
carries none. -/
theorem C10_strict_window_nan_witness :
    ((⟨(1 : ℚ), (1 : ℚ), 5⟩ : SRow ℚ ℚ), (none : Option ℚ)).2 = none :=
  C10_strict_window_nan [⟨1, 1, 5⟩] 4 ((⟨1, 1, 5⟩ : SRow ℚ ℚ), (none : Option ℚ))
    (by decide) (by decide) (by decide)

/-! ### Claim C6: failure semantics (missing columns, zero rows, degenerate
input) -/

theorem getCol_error_of_absent (t : Table) (c : String)
    (h : t.find? (fun p => p.1 = c) = none) :
    getCol t c = Except.error ("KeyError: " ++ c) := by
  simp [getCol, h]

theorem getCol_none_or (t : Table) (c : String) :
    (∃ l, getCol t c = Except.ok l) ∨ getCol t c = Except.error ("KeyError: " ++ c) := by
  unfold getCol
  cases t.find? (fun p => p.1 = c) with
  | none => exact Or.inr rfl
  | some p => exact Or.inl ⟨p.2, rfl⟩

/-- C6, amended: each transform signals a usage error when a column it
actually reads is absent (`qty_break_discounts` never reads its sku_col
parameter, so only its quantity and price columns are checked); on a
well-typed zero-row table, `sales_by_product` and `moving_avg_volume` return
an empty result with the documented column set, while `qty_break_discounts`
instead returns one row per bucket (with NaN averages) — a well-typed but
non-empty result; and the statistically degenerate single-row table passed
to the rolling average returns normally with a NaN rolling value. -/
theorem C6_failure_semantics_amended :
    (∀ (t : Table) (s q v : String),
      (t.find? (fun c => c.1 = s) = none ∨ t.find? (fun c => c.1 = q) = none ∨
        t.find? (fun c => c.1 = v) = none) →
      (sales_by_product_t t s q v).isOk = false) ∧
    (∀ (t : Table) (s v d : String) (w : Nat),
      (t.find? (fun c => c.1 = s) = none ∨ t.find? (fun c => c.1 = v) = none ∨
        t.find? (fun c => c.1 = d) = none) →
      (moving_avg_volume_t t s v d w).isOk = false) ∧
    (∀ (t : Table) (s q lp up : String) (breaks : List Int),
      (t.find? (fun c => c.1 = q) = none ∨ t.find? (fun c => c.1 = lp) = none ∨
        t.find? (fun c => c.1 = up) = none) →
      (qty_break_discounts_t t s q lp up breaks).isOk = false) ∧
    (∀ (t : Table) (s q v : String),
      getCol t s = Except.ok [] → getCol t q = Except.ok [] → getCol t v = Except.ok [] →
      sales_by_product_t t s q v =
        Except.ok [(s, []), ("total_units", []), ("total_volume", [])]) ∧
    (∀ (t : Table) (s v d : String) (w : Nat),
      getCol t s = Except.ok [] → getCol t v = Except.ok [] → getCol t d = Except.ok [] →
      moving_avg_volume_t t s v d w =
        Except.ok [(s, []), (d, []), (v, []), ("rolling_avg_volume", [])]) ∧
    (∀ (t : Table) (s q lp up : String),
      getCol t q = Except.ok [] → getCol t lp = Except.ok [] → getCol t up = Except.ok [] →
      ∃ l, qty_break_discounts_t t s q lp up [10, 50, 100] = Except.ok l ∧
        l.length = 4) ∧
    (∀ (t : Table) (s v d : String) (s0 v0 d0 : ℚ),
      getCol t s = Except.ok [s0] → getCol t v = Except.ok [v0] →
      getCol t d = Except.ok [d0] →
      moving_avg_volume_t t s v d 4 =
        Except.ok [(s, [FVal.num s0]), (d, [FVal.num d0]), (v, [FVal.num v0]),
          ("rolling_avg_volume", [FVal.nan])]) := by
  refine ⟨?_, ?_, ?_, ?_, ?_, ?_, ?_⟩
  · intro t s q v h
    rcases h with h | h | h
    · simp [Bind.bind, Except.bind, Functor.map, Except.map, Pure.pure, Except.pure, sales_by_product_t, getCol_error_of_absent t s h, Except.isOk, Except.toBool]
    · rcases getCol_none_or t s with ⟨ls, hs⟩ | hs <;>
        simp [Bind.bind, Except.bind, Functor.map, Except.map, Pure.pure, Except.pure, sales_by_product_t, hs, getCol_error_of_absent t q h, Except.isOk,
          Except.toBool]
    · rcases getCol_none_or t s with ⟨ls, hs⟩ | hs <;>
        rcases getCol_none_or t q with ⟨lq, hq⟩ | hq <;>
        simp [Bind.bind, Except.bind, Functor.map, Except.map, Pure.pure, Except.pure, sales_by_product_t, hs, hq, getCol_error_of_absent t v h, Except.isOk,
          Except.toBool]
  · intro t s v d w h
    rcases h with h | h | h
    · rcases getCol_none_or t d with ⟨ld, hd⟩ | hd <;>
        simp [Bind.bind, Except.bind, Functor.map, Except.map, Pure.pure, Except.pure, moving_avg_volume_t, hd, getCol_error_of_absent t s h, Except.isOk,
          Except.toBool]
    · rcases getCol_none_or t d with ⟨ld, hd⟩ | hd <;>
        rcases getCol_none_or t s with ⟨ls, hs⟩ | hs <;>
        simp [Bind.bind, Except.bind, Functor.map, Except.map, Pure.pure, Except.pure, moving_avg_volume_t, hd, hs, getCol_error_of_absent t v h, Except.isOk,
          Except.toBool]
    · simp [Bind.bind, Except.bind, Functor.map, Except.map, Pure.pure, Except.pure, moving_avg_volume_t, getCol_error_of_absent t d h, Except.isOk, Except.toBool]
  · intro t s q lp up breaks h
    rcases h with h | h | h
    · rcases getCol_none_or t lp with ⟨l1, h1⟩ | h1 <;>
        rcases getCol_none_or t up with ⟨l2, h2⟩ | h2 <;>
        simp [Bind.bind, Except.bind, Functor.map, Except.map, Pure.pure, Except.pure, qty_break_discounts_t, h1, h2, getCol_error_of_absent t q h, Except.isOk,
          Except.toBool]
    · simp [Bind.bind, Except.bind, Functor.map, Except.map, Pure.pure, Except.pure, qty_break_discounts_t, getCol_error_of_absent t lp h, Except.isOk,
        Except.toBool]
    · rcases getCol_none_or t lp with ⟨l1, h1⟩ | h1 <;>
        simp [Bind.bind, Except.bind, Functor.map, Except.map, Pure.pure, Except.pure, qty_break_discounts_t, h1, getCol_error_of_absent t up h, Except.isOk,
          Except.toBool]
  · intro t s q v hs hq hv
    simp [Bind.bind, Except.bind, Functor.map, Except.map, Pure.pure, Except.pure, sales_by_product_t, hs, hq, hv, zip3W, sales_by_product, sortedKeys,
      stableSort, List.dedup]
  · intro t s v d w hs hv hd
    simp [Bind.bind, Except.bind, Functor.map, Except.map, Pure.pure, Except.pure, moving_avg_volume_t, hs, hv, hd, zip3W, moving_avg_volume, sortedKeys,
      stableSort, List.dedup]
  · intro t s q lp up hq hlp hup
    refine ⟨[((FVal.num 0, FVal.num 10), FVal.nan), ((FVal.num 10, FVal.num 50), FVal.nan),
      ((FVal.num 50, FVal.num 100), FVal.nan), ((FVal.num 100, FVal.nan), FVal.nan)],
      ?_, rfl⟩
    simp only [qty_break_discounts_t, hq, hlp, hup]
    show qty_break_discounts [] [10, 50, 100] = _
    rfl
  · intro t s v d s0 v0 d0 hs hv hd
    simp only [moving_avg_volume_t, hs, hv, hd]
    show Except.ok _ = _
    have hroll : rollvals [v0] 4 = [none] := by
      simp [rollvals, List.range_succ, List.range_zero]
    have hnd : (([⟨s0, d0, v0⟩] : List (SRow ℚ ℚ)).map
        (fun r => (r.sku, r.date))).Nodup := by simp
    have hmav : moving_avg_volume (K := ℚ) (D := ℚ) [⟨s0, d0, v0⟩] 4 =
        [(⟨s0, d0, v0⟩, none)] := by
      rw [moving_avg_characterization _ 4 hnd]
      simp [stableSort, insSorted, groupRollLookup, hroll]
    simp [zip3W, hmav]

/-- Witness for C6 (amended): a table with a qty column only — `sales_by_product_t`
detects the missing sku column. -/
theorem C6_failure_semantics_witness :
    (sales_by_product_t [("qty", [5])] "sku" "qty" "vol").isOk = false :=
  (C6_failure_semantics_amended).1 [("qty", [5])] "sku" "qty" "vol"
    (Or.inl (by decide))

/-- Counterexample to C6 as stated, at a zero-row table lacking its sku
column: `qty_break_discounts` neither signals the missing column named by its
parameters nor returns an empty result — it returns four bucket rows. -/
theorem C6_counterexample :
    qty_break_discounts_t [("qty", []), ("lp", []), ("up", [])] "sku" "qty" "lp" "up"
      [10, 50, 100] =
      Except.ok [((FVal.num 0, FVal.num 10), FVal.nan),
        ((FVal.num 10, FVal.num 50), FVal.nan),
        ((FVal.num 50, FVal.num 100), FVal.nan),
        ((FVal.num 100, FVal.nan), FVal.nan)] ∧
    ([("qty", ([] : List ℚ)), ("lp", []), ("up", [])].find? (fun c => c.1 = "sku")
      = none) := by
  exact ⟨by rfl, by decide⟩

end DataAnalysis
